import Mathlib

set_option maxRecDepth 8000

/- Verification development for the tutorial-finding pipeline of chat.py.

   Conventions of the embedding:
   - Python strings are modelled as `String` / `List Char`; the behaviour of the
     concrete regular expressions appearing in the source is implemented directly
     on character lists (restricted to the ASCII whitespace characters, which are
     the only separators the source's inputs exercise).
   - Python floats are modelled by exact rationals, with `round(x, 1)`'s
     round-half-to-even behaviour modelled by `pyRound1`.
   - The two remote collaborators (video search and video statistics) are an
     explicit environment `Env`.  The search endpoint is indexed by the call
     number so that distinct calls may observe distinct responses; the statistics
     endpoint is keyed by video id.
   - Python exceptions are modelled by `Option`/dedicated constructors:
     `get_video_details` returns `none` where the source would raise
     (`response['items'][0]` on an empty list, or a missing `'viewCount'` key),
     and an uncaught such exception inside `find_top_rated_videos` surfaces as
     `FTRVResult.exn`. -/

/-- ASCII whitespace as matched by Python's regex class and by str.strip/str.split. -/
def isPySpace (c : Char) : Bool :=
  c == ' ' || c == '\t' || c == '\n' || c == '\r' || c == '\x0b' || c == '\x0c'

/-- Length of the maximal whitespace run at the head of the list (a greedy
regex star or plus over whitespace). -/
def wsCount (cs : List Char) : Nat :=
  (cs.takeWhile isPySpace).length

/-- Leftmost-alternative match, at the head of `cs`, of the source's separator
regex from line 180 of chat.py: comma with optional surrounding whitespace,
or the literal lowercase words "and" / "or" with mandatory whitespace on both
sides (the source passes no IGNORECASE flag).  Returns the length of the match
when one starts exactly at the head. -/
def matchSep (cs : List Char) : Option Nat :=
  if (cs.drop (wsCount cs)).take 1 = [','] then
    some (wsCount cs + 1 + wsCount ((cs.drop (wsCount cs)).drop 1))
  else if wsCount cs = 0 then none
  else if (cs.drop (wsCount cs)).take 3 = ['a', 'n', 'd'] ∧
      wsCount ((cs.drop (wsCount cs)).drop 3) ≠ 0 then
    some (wsCount cs + 3 + wsCount ((cs.drop (wsCount cs)).drop 3))
  else if (cs.drop (wsCount cs)).take 2 = ['o', 'r'] ∧
      wsCount ((cs.drop (wsCount cs)).drop 2) ≠ 0 then
    some (wsCount cs + 2 + wsCount ((cs.drop (wsCount cs)).drop 2))
  else none

/-- Position and length of the leftmost separator match in `cs`, if any. -/
def findSep : List Char → Option (Nat × Nat)
  | [] => none
  | c :: cs =>
    match matchSep (c :: cs) with
    | some n => some (0, n)
    | none => (findSep cs).map fun p => (p.1 + 1, p.2)

/-- Fuelled worker for `pySplit`; the fuel is only a structural-recursion
device and any fuel at least the length of the list gives the same answer. -/
def pySplitF : Nat → List Char → List (List Char)
  | 0, cs => [cs]
  | fuel + 1, cs =>
    match findSep cs with
    | none => [cs]
    | some (i, n) => cs.take i :: pySplitF fuel (cs.drop (i + n))

/-- re.split of the separator regex over the input, keeping empty pieces,
as Python's re.split does. -/
def pySplit (cs : List Char) : List (List Char) :=
  pySplitF cs.length cs

/-- Python str.strip(): remove whitespace from both ends. -/
def pyStrip (cs : List Char) : List Char :=
  (((cs.dropWhile isPySpace).reverse).dropWhile isPySpace).reverse

/-- The suffix appended by the tutorial button handler. -/
def inPython : List Char := " in Python".toList

/-- Line 180 of chat.py: every split piece is stripped and then gets
" in Python" appended, unconditionally. -/
def conceptsOf (q : List Char) : List (List Char) :=
  (pySplit q).map fun p => pyStrip p ++ inPython

/-- Number of fields of Python's str.split() (split on whitespace runs,
empties discarded); the boolean records whether we are inside a word. -/
def countWordsAux : Bool → List Char → Nat
  | _, [] => 0
  | inw, c :: cs =>
    if isPySpace c then countWordsAux false cs
    else (if inw then 0 else 1) + countWordsAux true cs

/-- len(s.split()) for Python's whitespace split. -/
def countWords (cs : List Char) : Nat :=
  countWordsAux false cs

/-- Line 183 of chat.py: a second pass appends another " in Python" to
concepts consisting of a single whitespace-separated word. -/
def finalConceptsOf (q : List Char) : List (List Char) :=
  (conceptsOf q).map fun c => if countWords c = 1 then c ++ inPython else c

/-- The concept list the tutorial button handler passes to
find_top_rated_videos, at the String level. -/
def parseConcepts (s : String) : List String :=
  (finalConceptsOf s.toList).map fun l => String.mk l

/-- Observable behaviour of the tutorial button handler: either the
"Please enter a question to find a tutorial." prompt, or a search over the
parsed concepts (which performs remote calls). -/
inductive HandlerAction where
  | prompt
  | search (concepts : List String)
deriving DecidableEq

/-- Lines 176-199 of chat.py: `if user_input:` is Python string truthiness,
i.e. the handler searches whenever the raw input is non-empty. -/
def tutorialHandler (user_input : String) : HandlerAction :=
  if user_input = "" then .prompt else .search (parseConcepts user_input)

/-- Word characters of the regex \b boundary (ASCII view, which is exact for
7-bit texts; non-ASCII texts are rejected by the second pattern anyway). -/
def isWordChar (c : Char) : Bool := c.isAlphanum || c == '_'

/-- The fixed other-language tokens of is_english, lowercased. -/
def langTokens : List (List Char) :=
  ["hindi".toList, "chinese".toList, "french".toList, "german".toList,
   "spanish".toList, "japanese".toList, "korean".toList, "russian".toList]

/-- Case-insensitive match of `tok` at position `i` of `text`, with regex
word boundaries on both sides. -/
def matchesWordAt (text tok : List Char) (i : Nat) : Bool :=
  decide (((text.drop i).take tok.length).map Char.toLower = tok)
  && (i == 0 || !isWordChar (text.getD (i - 1) ' '))
  && !isWordChar (text.getD (i + tok.length) ' ')

/-- re.search of the first pattern of is_english: some language token occurs
somewhere as a whole word, case-insensitively. -/
def containsLangWord (text : List Char) : Bool :=
  (List.range (text.length + 1)).any fun i =>
    langTokens.any fun tok => matchesWordAt text tok i

/-- re.search of the second pattern of is_english: some character outside the
7-bit ASCII range. -/
def hasNonAscii (text : List Char) : Bool :=
  text.any fun c => 127 < c.toNat

/-- Lines 48-52 of chat.py. -/
def is_english (s : String) : Bool :=
  !(containsLangWord s.toList || hasNonAscii s.toList)

/-- Statistics record of find_top_rated_videos / get_video_details. -/
structure VideoStats where
  views : Nat
  likes : Nat
  comments : Nat
deriving DecidableEq

/-- Round half to even, as Python's round does on exact values. -/
def roundHalfEven (x : ℚ) : ℤ :=
  if x - Int.floor x < 1 / 2 then Int.floor x
  else if 1 / 2 < x - Int.floor x then Int.floor x + 1
  else if Int.floor x % 2 = 0 then Int.floor x else Int.floor x + 1

/-- Python round(x, 1). -/
def pyRound1 (x : ℚ) : ℚ :=
  (roundHalfEven (x * 10) : ℚ) / 10

/-- Python's substring test `needle in hay`. -/
def containsSub (needle hay : List Char) : Bool :=
  (List.range (hay.length + 1)).any fun i =>
    decide ((hay.drop i).take needle.length = needle)

/-- Lines 107-109 of chat.py. -/
def calculate_title_relevance_score (title topic : String) : ℚ :=
  if containsSub (topic.toList.map Char.toLower) (title.toList.map Char.toLower) then 1 else 0

/-- Lines 111-123 of chat.py. -/
def calculate_rating (video_details : VideoStats) (title_relevance_score : ℚ) : ℚ :=
  let views : ℚ := video_details.views
  let likes : ℚ := video_details.likes
  let comments : ℚ := video_details.comments
  let normalized_views := views / 1000000
  let normalized_comments := comments / 1000
  let rating := 0.6 * title_relevance_score + 0.2 * (likes / (views + 1))
      + 0.1 * normalized_views + 0.2 * normalized_comments
  pyRound1 (min (rating * 10) 10)

/-- The composite-rating formula exactly as the specification states it,
for comparison with `calculate_rating`. -/
def rating_spec (video_details : VideoStats) (r : ℚ) : ℚ :=
  pyRound1 (min ((0.6 * r + 0.2 * ((video_details.likes : ℚ) / ((video_details.views : ℚ) + 1))
      + 0.1 * ((video_details.views : ℚ) / 1000000)
      + 0.2 * ((video_details.comments : ℚ) / 1000)) * 10) 10)

/-- One raw item of a search response (id, snippet fields). -/
structure RawItem where
  videoId : String
  title : String
  description : String
  channelTitle : String
  publishedAt : String
deriving DecidableEq

/-- A raw statistics object; each field may be absent from the response. -/
structure StatisticsObj where
  viewCount : Option Nat
  likeCount : Option Nat
  commentCount : Option Nat
deriving DecidableEq

/-- The two remote collaborators.  `searchResp i t` is the response of the
i-th search call when queried with topic `t` (`Except.error e` models an
HttpError with message `e`); `statsResp v` is the statistics response for
video id `v` (`none` models a response with no matching item). -/
structure Env where
  searchResp : Nat → String → Except String (List RawItem)
  statsResp : String → Option StatisticsObj

/-- The dictionary built for each surviving video by search_videos. -/
structure Video where
  video_id : String
  title : String
  url : String
  channel_title : String
  published_at : String
deriving DecidableEq

/-- Lines 77-86 of chat.py: field extraction and canonical watch URL. -/
def mkVideo (it : RawItem) : Video :=
  { video_id := it.videoId
    title := it.title
    url := "https://www.youtube.com/watch?v=" ++ it.videoId
    channel_title := it.channelTitle
    published_at := it.publishedAt }

/-- The string-or-list duality of search_videos's return value. -/
inductive SearchResult where
  | errStr (s : String)
  | vids (l : List Video)
deriving DecidableEq

/-- Lines 54-91 of chat.py: build the candidate list, dropping items whose
title or description fails is_english; an HttpError is returned as a
formatted string instead of a list. -/
def search_videos (env : Env) (callIdx : Nat) (topic : String) : SearchResult :=
  match env.searchResp callIdx topic with
  | .error e => .errStr ("An HTTP error occurred: " ++ e)
  | .ok items => .vids (items.filterMap fun it =>
      if is_english it.title && is_english it.description then some (mkVideo it) else none)

/-- Lines 93-105 of chat.py: `none` models the exception raised when the
response has no items or the statistics object has no viewCount; absent
like/comment counts default to 0. -/
def get_video_details (env : Env) (video_id : String) : Option VideoStats :=
  match env.statsResp video_id with
  | none => none
  | some stats =>
    match stats.viewCount with
    | none => none
    | some v => some { views := v, likes := stats.likeCount.getD 0, comments := stats.commentCount.getD 0 }

/-- The per-concept output record of find_top_rated_videos. -/
structure Ranked where
  title : String
  channel_name : String
  date_uploaded : String
  rating : ℚ
  url : String
  video_id : String
deriving DecidableEq

/-- Lines 146-153 of chat.py. -/
def mkRanked (v : Video) (d : VideoStats) (topic : String) : Ranked :=
  { title := v.title
    channel_name := v.channel_title
    date_uploaded := v.published_at
    rating := calculate_rating d (calculate_title_relevance_score v.title topic)
    url := v.url
    video_id := v.video_id }

/-- Lines 135-153 of chat.py: per-candidate stats fetch, quality floor of 50
comments, rating computation.  `none` is an uncaught stats exception. -/
def processVideos (env : Env) (topic : String) : List Video → Option (List Ranked)
  | [] => some []
  | v :: vs =>
    match get_video_details env v.video_id with
    | none => none
    | some d =>
      if 50 ≤ d.comments then
        (processVideos env topic vs).map fun rest => mkRanked v d topic :: rest
      else processVideos env topic vs

/-- Stable insertion step for the descending-by-rating sort: the new element
(which precedes the list elements in discovery order) goes before the first
element whose rating does not exceed its own. -/
def insertDesc (x : Ranked) : List Ranked → List Ranked
  | [] => [x]
  | y :: ys => if x.rating < y.rating then y :: insertDesc x ys else x :: y :: ys

/-- Line 155 of chat.py: `results.sort(key=rating, reverse=True)` — a stable
descending sort (Python's sort is stable). -/
def sortDesc : List Ranked → List Ranked
  | [] => []
  | x :: xs => insertDesc x (sortDesc xs)

/-- Python dict assignment `d[k] = v` on an insertion-ordered dictionary:
replace the value at the first matching key in place, else append. -/
def dictInsert (k : String) (v : List Ranked) :
    List (String × List Ranked) → List (String × List Ranked)
  | [] => [(k, v)]
  | (k', v') :: rest => if k' = k then (k, v) :: rest else (k', v') :: dictInsert k v rest

/-- Outcome of find_top_rated_videos: a returned error string, an uncaught
stats exception, or the result dictionary. -/
inductive FTRVResult where
  | errStr (s : String)
  | exn
  | ok (m : List (String × List Ranked))
deriving DecidableEq

/-- The per-topic loop of lines 130-156 of chat.py; the counter is the number
of search calls already made. -/
def ftrvGo (env : Env) : Nat → List String → List (String × List Ranked) → FTRVResult
  | _, [], acc => .ok acc
  | i, topic :: ts, acc =>
    match search_videos env i topic with
    | .errStr s => .errStr s
    | .vids videos =>
      match processVideos env topic videos with
      | none => .exn
      | some results => ftrvGo env (i + 1) ts (dictInsert topic ((sortDesc results).take 1) acc)

/-- Lines 126-158 of chat.py. -/
def find_top_rated_videos (env : Env) (topics : List String) : FTRVResult :=
  ftrvGo env 0 topics []

/-- The qualifying candidates (post quality floor, pre sort) the loop body
computes for a topic searched as call `i`; `none` when the search errors or a
stats fetch raises. -/
def qualifiedAt (env : Env) (i : Nat) (topic : String) : Option (List Ranked) :=
  match search_videos env i topic with
  | .errStr _ => none
  | .vids videos => processVideos env topic videos

/-- The value the loop body stores for a topic searched as call `i`. -/
def conceptResultAt (env : Env) (i : Nat) (topic : String) : Option (List Ranked) :=
  (qualifiedAt env i topic).map fun results => (sortDesc results).take 1

/-- The loop body completes for this topic without error or exception. -/
def topicOkAt (env : Env) (i : Nat) (topic : String) : Bool :=
  (conceptResultAt env i topic).isSome

/-- Every topic of the list completes, with search-call numbering starting
at `i`. -/
def topicsOkFrom (env : Env) : Nat → List String → Bool
  | _, [] => true
  | i, t :: ts => topicOkAt env i t && topicsOkFrom env (i + 1) ts

/-- Index of the last occurrence of `t`. -/
def lastIdxOf : List String → String → Option Nat
  | [], _ => none
  | t' :: ts, t =>
    match lastIdxOf ts t with
    | some j => some (j + 1)
    | none => if t' = t then some 0 else none

/-- Letters, used to describe separator-free query tokens. -/
def isLetter (c : Char) : Bool :=
  ('a' ≤ c && c ≤ 'z') || ('A' ≤ c && c ≤ 'Z')

/-- Concrete witness data: one well-formed search item. -/
def itemA : RawItem :=
  { videoId := "vid1", title := "t tutorial", description := "learn t",
    channelTitle := "chanA", publishedAt := "2024-01-01" }

/-- Concrete witness environment: topic "fail" errors, the first search call
returns `itemA`, later calls return nothing; only "vid1" has statistics. -/
def envA : Env :=
  { searchResp := fun i t =>
      if t = "fail" then .error "boom"
      else if i = 0 then .ok [itemA] else .ok []
    statsResp := fun v =>
      if v = "vid1" then some { viewCount := some 0, likeCount := some 0, commentCount := some 1000 }
      else none }

/-- The ranked record `envA` produces from `itemA` for topic "t". -/
def rankedA : Ranked :=
  { title := "t tutorial", channel_name := "chanA", date_uploaded := "2024-01-01",
    rating := 8, url := "https://www.youtube.com/watch?v=vid1", video_id := "vid1" }

/- Basic facts about whitespace runs. -/

lemma wsCount_nil : wsCount [] = 0 := rfl

lemma wsCount_cons_pos {c : Char} (h : isPySpace c = true) (cs : List Char) :
    wsCount (c :: cs) = wsCount cs + 1 := by
  simp [wsCount, List.takeWhile_cons, h, Nat.add_comm]

lemma wsCount_cons_neg {c : Char} (h : isPySpace c = false) (cs : List Char) :
    wsCount (c :: cs) = 0 := by
  simp [wsCount, List.takeWhile_cons, h]

lemma matchSep_pos {cs : List Char} {n : Nat} (h : matchSep cs = some n) : 0 < n := by
  unfold matchSep at h
  split_ifs at h <;> simp_all <;> omega

lemma findSep_pos : ∀ {cs : List Char} {i n : Nat}, findSep cs = some (i, n) → 0 < n := by
  intro cs
  induction cs with
  | nil => intro i n h; simp [findSep] at h
  | cons c cs ih =>
    intro i n h
    unfold findSep at h
    cases hm : matchSep (c :: cs) with
    | some k =>
      rw [hm] at h
      simp at h
      obtain ⟨_, rfl⟩ := h
      exact matchSep_pos hm
    | none =>
      rw [hm] at h
      simp only [Option.map_eq_some'] at h
      obtain ⟨⟨a, b⟩, hab, hfb⟩ := h
      simp only [Prod.mk.injEq] at hfb
      exact hfb.2 ▸ ih hab

lemma pySplitF_congr : ∀ (f₁ f₂ : Nat) (cs : List Char),
    cs.length ≤ f₁ → cs.length ≤ f₂ → pySplitF f₁ cs = pySplitF f₂ cs := by
  intro f₁
  induction f₁ with
  | zero =>
    intro f₂ cs h1 _
    have : cs = [] := List.length_eq_zero.mp (Nat.le_zero.mp h1)
    subst this
    cases f₂ with
    | zero => rfl
    | succ f => simp [pySplitF, findSep]
  | succ f ih =>
    intro f₂ cs h1 h2
    cases f₂ with
    | zero =>
      have : cs = [] := List.length_eq_zero.mp (Nat.le_zero.mp h2)
      subst this
      simp [pySplitF, findSep]
    | succ g =>
      show pySplitF (f + 1) cs = pySplitF (g + 1) cs
      unfold pySplitF
      cases hf : findSep cs with
      | none => rfl
      | some p =>
        obtain ⟨i, n⟩ := p
        have hn : 0 < n := findSep_pos hf
        have hlen : (cs.drop (i + n)).length ≤ f := by
          rw [List.length_drop]; omega
        have hlen2 : (cs.drop (i + n)).length ≤ g := by
          rw [List.length_drop]; omega
        simp only []
        rw [ih g (cs.drop (i + n)) hlen hlen2]

lemma pySplit_none {cs : List Char} (h : findSep cs = none) : pySplit cs = [cs] := by
  cases cs with
  | nil => rfl
  | cons c cs' =>
    show pySplitF (c :: cs').length (c :: cs') = [c :: cs']
    rw [List.length_cons]
    unfold pySplitF
    rw [h]

lemma pySplit_step {cs : List Char} {i n : Nat} (h : findSep cs = some (i, n)) :
    pySplit cs = cs.take i :: pySplit (cs.drop (i + n)) := by
  cases cs with
  | nil => simp [findSep] at h
  | cons c cs' =>
    have hn : 0 < n := findSep_pos h
    have hle : ((c :: cs').drop (i + n)).length ≤ cs'.length := by
      rw [List.length_drop, List.length_cons]; omega
    show pySplitF (c :: cs').length (c :: cs') = _
    rw [List.length_cons]
    unfold pySplitF
    rw [h]
    show (c :: cs').take i :: pySplitF cs'.length ((c :: cs').drop (i + n)) = _
    congr 1
    exact pySplitF_congr cs'.length ((c :: cs').drop (i + n)).length _ hle (le_refl _)

/- Facts about letters, stripping and word counting. -/

lemma isLetter_not_space {c : Char} (h : isLetter c = true) : isPySpace c = false := by
  cases hc : isPySpace c with
  | false => rfl
  | true =>
    simp only [isPySpace, Bool.or_eq_true, beq_iff_eq] at hc
    rcases hc with ((((rfl | rfl) | rfl) | rfl) | rfl) | rfl <;> exact absurd h (by decide)

lemma isLetter_ne_comma {c : Char} (h : isLetter c = true) : c ≠ ',' := by
  rintro rfl; exact absurd h (by decide)

lemma wsCount_of_letters {cs : List Char} (h : ∀ c ∈ cs, isLetter c = true) :
    wsCount cs = 0 := by
  cases cs with
  | nil => rfl
  | cons c cs' =>
    exact wsCount_cons_neg (isLetter_not_space (h c (List.mem_cons_self c cs'))) cs'

lemma dropWhile_of_head_neg {cs : List Char}
    (h : ∀ c ∈ cs.take 1, isPySpace c = false) : cs.dropWhile isPySpace = cs := by
  cases cs with
  | nil => rfl
  | cons c cs' =>
    have hc : isPySpace c = false := h c (by simp)
    simp [List.dropWhile_cons, hc]

lemma pyStrip_of_ends {cs : List Char}
    (h1 : ∀ c ∈ cs.take 1, isPySpace c = false)
    (h2 : ∀ c ∈ cs.reverse.take 1, isPySpace c = false) : pyStrip cs = cs := by
  unfold pyStrip
  rw [dropWhile_of_head_neg h1, dropWhile_of_head_neg h2, List.reverse_reverse]

lemma pyStrip_of_letters {cs : List Char} (h : ∀ c ∈ cs, isLetter c = true) :
    pyStrip cs = cs := by
  refine pyStrip_of_ends (fun c hc => ?_) (fun c hc => ?_)
  · exact isLetter_not_space (h c (List.mem_of_mem_take hc))
  · exact isLetter_not_space (h c (List.mem_reverse.mp (List.mem_of_mem_take hc)))

lemma countWordsAux_cons (b : Bool) (c : Char) (cs : List Char) :
    countWordsAux b (c :: cs) =
      if isPySpace c then countWordsAux false cs
      else (if b then 0 else 1) + countWordsAux true cs := rfl

lemma countWordsAux_append_space (l m : List Char) :
    ∀ b, countWordsAux b (l ++ ' ' :: m) = countWordsAux b l + countWordsAux false m := by
  induction l with
  | nil =>
    intro b
    rw [List.nil_append, countWordsAux_cons]
    simp [countWordsAux, isPySpace]
  | cons c l' ih =>
    intro b
    rw [List.cons_append, countWordsAux_cons, countWordsAux_cons]
    by_cases hc : isPySpace c = true
    · rw [if_pos hc, if_pos hc, ih]
    · rw [if_neg (by simp [hc] : ¬ isPySpace c = true),
        if_neg (by simp [hc] : ¬ isPySpace c = true), ih, Nat.add_assoc]

lemma countWords_append_inPython (l : List Char) :
    countWords (l ++ inPython) = countWords l + 2 := by
  have h : inPython = ' ' :: "in Python".toList := by decide
  rw [h]
  show countWordsAux false (l ++ ' ' :: "in Python".toList) = countWordsAux false l + 2
  rw [countWordsAux_append_space l "in Python".toList false]
  have h2 : countWordsAux false "in Python".toList = 2 := by decide
  rw [h2]

lemma map_eq_self_of {α : Type} (l : List α) (f : α → α) (h : ∀ a ∈ l, f a = a) :
    l.map f = l := by
  induction l with
  | nil => rfl
  | cons a l' ih =>
    rw [List.map_cons, h a (List.mem_cons_self a l'), ih (fun b hb => h b (List.mem_cons_of_mem a hb))]

/-- The second appending pass of line 183 never fires: every first-pass
concept ends in " in Python" and therefore has at least two words. -/
lemma secondPass_id (q : List Char) : finalConceptsOf q = conceptsOf q := by
  unfold finalConceptsOf
  refine map_eq_self_of _ _ (fun c hc => ?_)
  obtain ⟨p, _, rfl⟩ := List.mem_map.mp hc
  have h2 : countWords (pyStrip p ++ inPython) = countWords (pyStrip p) + 2 :=
    countWords_append_inPython (pyStrip p)
  rw [if_neg (by omega)]

/- Where the separator regex can and cannot match. -/

lemma matchSep_letter_head {c : Char} (h : isLetter c = true) (cs : List Char) :
    matchSep (c :: cs) = none := by
  have hw : wsCount (c :: cs) = 0 := wsCount_cons_neg (isLetter_not_space h) cs
  unfold matchSep
  rw [hw]
  rw [if_neg, if_pos rfl]
  simp only [List.drop_zero, List.take_cons, List.take_zero]
  intro hc
  have : c = ',' := by simpa using hc
  exact isLetter_ne_comma h this

lemma wsCount_all_space {cs : List Char} (h : ∀ c ∈ cs, isPySpace c = true) :
    wsCount cs = cs.length := by
  unfold wsCount
  rw [List.takeWhile_eq_self_iff.mpr h]

lemma matchSep_all_space {cs : List Char} (h : ∀ c ∈ cs, isPySpace c = true) :
    matchSep cs = none := by
  have hw : wsCount cs = cs.length := wsCount_all_space h
  have hd : cs.drop (wsCount cs) = [] := by rw [hw, List.drop_length]
  unfold matchSep
  rw [hd]
  cases hz : cs.length with
  | zero => rw [if_neg (by simp), if_pos (by rw [hw, hz])]
  | succ k =>
    rw [if_neg (by simp), if_neg (by rw [hw, hz]; omega), if_neg (by simp), if_neg (by simp)]

lemma wsCount_space_letters {b : List Char} (hb : ∀ c ∈ b, isLetter c = true) :
    wsCount (' ' :: b) = 1 := by
  rw [wsCount_cons_pos (by decide) b, wsCount_of_letters hb]

lemma matchSep_space_letters {b : List Char} (hb : ∀ c ∈ b, isLetter c = true) :
    matchSep (' ' :: b) = none := by
  have hw : wsCount (' ' :: b) = 1 := wsCount_space_letters hb
  have hd : (' ' :: b).drop 1 = b := rfl
  unfold matchSep
  rw [hw, hd]
  rw [if_neg, if_neg (by omega), if_neg, if_neg]
  · rintro ⟨h2, hws⟩
    exact hws (wsCount_of_letters fun c hc => hb c (List.mem_of_mem_drop hc))
  · rintro ⟨h3, hws⟩
    exact hws (wsCount_of_letters fun c hc => hb c (List.mem_of_mem_drop hc))
  · intro h1
    have : ',' ∈ b.take 1 := by rw [h1]; simp
    exact isLetter_ne_comma (hb ',' (List.mem_of_mem_take this)) rfl

lemma findSep_append_letters {a : List Char} (ha : ∀ c ∈ a, isLetter c = true)
    (rest : List Char) :
    findSep (a ++ rest) = (findSep rest).map fun p => (p.1 + a.length, p.2) := by
  induction a with
  | nil =>
    rw [List.nil_append]
    cases findSep rest with
    | none => rfl
    | some p => simp
  | cons c a' ih =>
    have hc : isLetter c = true := ha c (List.mem_cons_self c a')
    have ha' : ∀ x ∈ a', isLetter x = true := fun x hx => ha x (List.mem_cons_of_mem c hx)
    rw [List.cons_append]
    show (match matchSep (c :: (a' ++ rest)) with
      | some n => some (0, n)
      | none => (findSep (a' ++ rest)).map fun p : Nat × Nat => (p.1 + 1, p.2)) = _
    rw [matchSep_letter_head hc, ih ha']
    cases findSep rest with
    | none => rfl
    | some p =>
      simp only [Option.map_some', List.length_cons]
      congr 2

lemma findSep_letters_none {a : List Char} (ha : ∀ c ∈ a, isLetter c = true) :
    findSep a = none := by
  have h := findSep_append_letters ha []
  rw [List.append_nil] at h
  rw [h]
  rfl

/- Separator matches at the junction between two letter-only tokens. -/

lemma matchSep_comma_space {b : List Char} (hb : ∀ c ∈ b, isLetter c = true) :
    matchSep (',' :: ' ' :: b) = some 2 := by
  have hw : wsCount (',' :: ' ' :: b) = 0 := wsCount_cons_neg (by decide) _
  unfold matchSep
  rw [hw]
  rw [if_pos (by simp)]
  simp only [List.drop_zero, List.drop_succ_cons, List.drop_zero]
  rw [wsCount_space_letters hb]

lemma matchSep_and_junction {b : List Char} (hb : ∀ c ∈ b, isLetter c = true) :
    matchSep (' ' :: 'a' :: 'n' :: 'd' :: ' ' :: b) = some 5 := by
  have hw : wsCount (' ' :: 'a' :: 'n' :: 'd' :: ' ' :: b) = 1 := by
    rw [wsCount_cons_pos (by decide), wsCount_cons_neg (by decide)]
  unfold matchSep
  rw [hw]
  rw [show (' ' :: 'a' :: 'n' :: 'd' :: ' ' :: b).drop 1 = 'a' :: 'n' :: 'd' :: ' ' :: b from rfl]
  rw [if_neg (by simp), if_neg (by omega),
    if_pos ⟨by simp, by rw [show ('a' :: 'n' :: 'd' :: ' ' :: b).drop 3 = ' ' :: b from rfl,
      wsCount_space_letters hb]; omega⟩]
  rw [show ('a' :: 'n' :: 'd' :: ' ' :: b).drop 3 = ' ' :: b from rfl, wsCount_space_letters hb]

lemma matchSep_or_junction {b : List Char} (hb : ∀ c ∈ b, isLetter c = true) :
    matchSep (' ' :: 'o' :: 'r' :: ' ' :: b) = some 4 := by
  have hw : wsCount (' ' :: 'o' :: 'r' :: ' ' :: b) = 1 := by
    rw [wsCount_cons_pos (by decide), wsCount_cons_neg (by decide)]
  unfold matchSep
  rw [hw]
  rw [show (' ' :: 'o' :: 'r' :: ' ' :: b).drop 1 = 'o' :: 'r' :: ' ' :: b from rfl]
  rw [if_neg (by simp), if_neg (by omega), if_neg (by simp),
    if_pos ⟨by simp, by rw [show ('o' :: 'r' :: ' ' :: b).drop 2 = ' ' :: b from rfl,
      wsCount_space_letters hb]; omega⟩]
  rw [show ('o' :: 'r' :: ' ' :: b).drop 2 = ' ' :: b from rfl, wsCount_space_letters hb]

lemma matchSep_AND_junction (b : List Char) :
    matchSep (' ' :: 'A' :: 'N' :: 'D' :: ' ' :: b) = none := by
  have hw : wsCount (' ' :: 'A' :: 'N' :: 'D' :: ' ' :: b) = 1 := by
    rw [wsCount_cons_pos (by decide), wsCount_cons_neg (by decide)]
  unfold matchSep
  rw [hw]
  rw [show (' ' :: 'A' :: 'N' :: 'D' :: ' ' :: b).drop 1 = 'A' :: 'N' :: 'D' :: ' ' :: b from rfl]
  rw [if_neg (by simp), if_neg (by omega), if_neg (by simp), if_neg (by simp)]

lemma findSep_junction {a j : List Char} {n : Nat}
    (ha : ∀ c ∈ a, isLetter c = true) (hj : findSep j = some (0, n)) :
    findSep (a ++ j) = some (a.length, n) := by
  rw [findSep_append_letters ha j, hj]
  simp

lemma pySplit_two_pieces {a j b : List Char} {n : Nat}
    (ha : ∀ c ∈ a, isLetter c = true) (hb : ∀ c ∈ b, isLetter c = true)
    (hj : findSep j = some (0, n)) (hd : j.drop n = b) :
    pySplit (a ++ j) = [a, b] := by
  rw [pySplit_step (findSep_junction ha hj), List.take_left]
  rw [List.drop_append, hd, pySplit_none (findSep_letters_none hb)]

lemma pySplit_letters {a : List Char} (ha : ∀ c ∈ a, isLetter c = true) :
    pySplit a = [a] :=
  pySplit_none (findSep_letters_none ha)

/- Computation of the parsed concepts for letter-only tokens around each
separator variant. -/

lemma take_one_append {l m : List Char} (h : l ≠ []) : (l ++ m).take 1 = l.take 1 := by
  cases l with
  | nil => exact absurd rfl h
  | cons x xs => simp

lemma findSep_cons_none {c : Char} {cs : List Char} (h : matchSep (c :: cs) = none) :
    findSep (c :: cs) = (findSep cs).map fun p : Nat × Nat => (p.1 + 1, p.2) := by
  show (match matchSep (c :: cs) with
    | some n => some (0, n)
    | none => (findSep cs).map fun p : Nat × Nat => (p.1 + 1, p.2)) = _
  rw [h]

lemma findSep_cons_some {c : Char} {cs : List Char} {n : Nat}
    (h : matchSep (c :: cs) = some n) : findSep (c :: cs) = some (0, n) := by
  show (match matchSep (c :: cs) with
    | some n => some (0, n)
    | none => (findSep cs).map fun p : Nat × Nat => (p.1 + 1, p.2)) = _
  rw [h]

lemma findSep_AND_none {a b : List Char}
    (ha : ∀ c ∈ a, isLetter c = true) (hb : ∀ c ∈ b, isLetter c = true) :
    findSep (a ++ ' ' :: 'A' :: 'N' :: 'D' :: ' ' :: b) = none := by
  rw [findSep_append_letters ha]
  rw [findSep_cons_none (matchSep_AND_junction b)]
  have hAND : ∀ c ∈ ['A', 'N', 'D'], isLetter c = true := by decide
  rw [show ('A' :: 'N' :: 'D' :: ' ' :: b) = ['A', 'N', 'D'] ++ ' ' :: b from rfl]
  rw [findSep_append_letters hAND]
  rw [findSep_cons_none (matchSep_space_letters hb)]
  rw [findSep_letters_none hb]
  rfl

lemma pyStrip_append_AND {a b : List Char} (hA : a ≠ []) (hB : b ≠ [])
    (ha : ∀ c ∈ a, isLetter c = true) (hb : ∀ c ∈ b, isLetter c = true) :
    pyStrip (a ++ ' ' :: 'A' :: 'N' :: 'D' :: ' ' :: b) =
      a ++ ' ' :: 'A' :: 'N' :: 'D' :: ' ' :: b := by
  apply pyStrip_of_ends
  · intro c hc
    rw [take_one_append hA] at hc
    exact isLetter_not_space (ha c (List.mem_of_mem_take hc))
  · intro c hc
    rw [List.reverse_append] at hc
    have hj : (' ' :: 'A' :: 'N' :: 'D' :: ' ' :: b).reverse =
        b.reverse ++ [' ', 'D', 'N', 'A', ' '] := by simp
    rw [hj, List.append_assoc, take_one_append (by simpa using hB)] at hc
    exact isLetter_not_space (hb c (List.mem_reverse.mp (List.mem_of_mem_take hc)))

lemma conceptsOf_letters {a : List Char} (ha : ∀ c ∈ a, isLetter c = true) :
    conceptsOf a = [a ++ inPython] := by
  rw [conceptsOf, pySplit_letters ha, List.map_cons, List.map_nil, pyStrip_of_letters ha]

lemma conceptsOf_two_pieces {a j b : List Char} {n : Nat}
    (ha : ∀ c ∈ a, isLetter c = true) (hb : ∀ c ∈ b, isLetter c = true)
    (hj : findSep j = some (0, n)) (hd : j.drop n = b) :
    conceptsOf (a ++ j) = [a ++ inPython, b ++ inPython] := by
  rw [conceptsOf, pySplit_two_pieces ha hb hj hd, List.map_cons, List.map_cons, List.map_nil,
    pyStrip_of_letters ha, pyStrip_of_letters hb]

/- The stable descending sort of line 155. -/

lemma mem_insertDesc {x z : Ranked} : ∀ {l : List Ranked}, z ∈ insertDesc x l ↔ z = x ∨ z ∈ l := by
  intro l
  induction l with
  | nil => simp [insertDesc]
  | cons y ys ih =>
    unfold insertDesc
    by_cases h : x.rating < y.rating
    · rw [if_pos h]
      simp only [List.mem_cons, ih]
      tauto
    · rw [if_neg h]
      simp only [List.mem_cons]

lemma mem_sortDesc {z : Ranked} : ∀ {l : List Ranked}, z ∈ sortDesc l ↔ z ∈ l := by
  intro l
  induction l with
  | nil => simp [sortDesc]
  | cons x xs ih =>
    unfold sortDesc
    rw [mem_insertDesc]
    simp only [List.mem_cons, ih]

lemma pairwise_insertDesc {x : Ranked} :
    ∀ {l : List Ranked}, List.Pairwise (fun a b => b.rating ≤ a.rating) l →
      List.Pairwise (fun a b => b.rating ≤ a.rating) (insertDesc x l) := by
  intro l
  induction l with
  | nil => intro _; simp [insertDesc]
  | cons y ys ih =>
    intro h
    rw [List.pairwise_cons] at h
    obtain ⟨hy, hys⟩ := h
    unfold insertDesc
    by_cases hlt : x.rating < y.rating
    · rw [if_pos hlt]
      rw [List.pairwise_cons]
      refine ⟨fun z hz => ?_, ih hys⟩
      rcases mem_insertDesc.mp hz with rfl | hz'
      · exact le_of_lt hlt
      · exact hy z hz'
    · rw [if_neg hlt]
      rw [List.pairwise_cons]
      refine ⟨fun z hz => ?_, List.pairwise_cons.mpr ⟨hy, hys⟩⟩
      rcases List.mem_cons.mp hz with rfl | hz'
      · exact le_of_not_lt hlt
      · exact le_trans (hy z hz') (le_of_not_lt hlt)

lemma sortDesc_sorted : ∀ (l : List Ranked),
    List.Pairwise (fun a b => b.rating ≤ a.rating) (sortDesc l) := by
  intro l
  induction l with
  | nil => simp [sortDesc]
  | cons x xs ih => exact pairwise_insertDesc ih

lemma filter_insertDesc (x : Ranked) (c : ℚ) :
    ∀ (l : List Ranked),
      (insertDesc x l).filter (fun r => decide (r.rating = c)) =
        if x.rating = c then x :: l.filter (fun r => decide (r.rating = c))
        else l.filter (fun r => decide (r.rating = c)) := by
  intro l
  induction l with
  | nil =>
    by_cases hx : x.rating = c
    · rw [if_pos hx]; simp [insertDesc, List.filter, hx]
    · rw [if_neg hx]; simp [insertDesc, List.filter, hx]
  | cons y ys ih =>
    unfold insertDesc
    by_cases hlt : x.rating < y.rating
    · rw [if_pos hlt]
      by_cases hy : y.rating = c
      · by_cases hx : x.rating = c
        · exact absurd hlt (by rw [hx, hy]; exact lt_irrefl c)
        · rw [if_neg hx]
          rw [List.filter_cons_of_pos (by simpa using hy),
            List.filter_cons_of_pos (by simpa using hy), ih, if_neg hx]
      · rw [List.filter_cons_of_neg (by simpa using hy),
          List.filter_cons_of_neg (by simpa using hy), ih]
    · rw [if_neg hlt]
      by_cases hx : x.rating = c
      · rw [if_pos hx, List.filter_cons_of_pos (by simpa using hx)]
      · rw [if_neg hx, List.filter_cons_of_neg (by simpa using hx)]

/-- Stability of the descending sort, phrased as preservation of the
subsequence of candidates at each fixed rating. -/
lemma filter_sortDesc (c : ℚ) : ∀ (l : List Ranked),
    (sortDesc l).filter (fun r => decide (r.rating = c)) =
      l.filter (fun r => decide (r.rating = c)) := by
  intro l
  induction l with
  | nil => rfl
  | cons x xs ih =>
    unfold sortDesc
    rw [filter_insertDesc x c (sortDesc xs), ih]
    by_cases hx : x.rating = c
    · rw [if_pos hx, List.filter_cons_of_pos (by simpa using hx)]
    · rw [if_neg hx, List.filter_cons_of_neg (by simpa using hx)]

/- Python dict semantics. -/

lemma mem_dictInsert_self (k : String) (v : List Ranked) :
    ∀ (l : List (String × List Ranked)), (k, v) ∈ dictInsert k v l := by
  intro l
  induction l with
  | nil => simp [dictInsert]
  | cons p rest ih =>
    obtain ⟨k', v'⟩ := p
    unfold dictInsert
    by_cases h : k' = k
    · rw [if_pos h]; exact List.mem_cons_self _ _
    · rw [if_neg h]; exact List.mem_cons_of_mem _ ih

lemma mem_dictInsert_of_ne {t k : String} {rv v : List Ranked} (hne : t ≠ k) :
    ∀ {l : List (String × List Ranked)}, (t, rv) ∈ l → (t, rv) ∈ dictInsert k v l := by
  intro l
  induction l with
  | nil => intro h; simp at h
  | cons p rest ih =>
    intro h
    obtain ⟨k', v'⟩ := p
    unfold dictInsert
    by_cases hk : k' = k
    · rw [if_pos hk]
      rcases List.mem_cons.mp h with heq | hmem
      · exfalso
        have : t = k' := (Prod.mk.injEq .. ▸ heq).1
        exact hne (this.trans hk)
      · exact List.mem_cons_of_mem _ hmem
    · rw [if_neg hk]
      rcases List.mem_cons.mp h with heq | hmem
      · exact heq ▸ List.mem_cons_self _ _
      · exact List.mem_cons_of_mem _ (ih hmem)

lemma dictInsert_keys (k : String) (v : List Ranked) :
    ∀ (l : List (String × List Ranked)),
      (dictInsert k v l).map Prod.fst =
        if k ∈ l.map Prod.fst then l.map Prod.fst else l.map Prod.fst ++ [k] := by
  intro l
  induction l with
  | nil => simp [dictInsert]
  | cons p rest ih =>
    obtain ⟨k', v'⟩ := p
    unfold dictInsert
    by_cases h : k' = k
    · rw [if_pos h]
      subst h
      simp
    · rw [if_neg h]
      rw [List.map_cons, List.map_cons, ih]
      by_cases hmem : k ∈ rest.map Prod.fst
      · rw [if_pos hmem, if_pos (by simp [hmem])]
      · rw [if_neg hmem, if_neg (by simp [hmem, Ne.symm h]), List.cons_append]

lemma dictInsert_keys_nodup {k : String} {v : List Ranked}
    {l : List (String × List Ranked)} (h : (l.map Prod.fst).Nodup) :
    ((dictInsert k v l).map Prod.fst).Nodup := by
  rw [dictInsert_keys]
  by_cases hmem : k ∈ l.map Prod.fst
  · rwa [if_pos hmem]
  · rw [if_neg hmem]
    refine List.Nodup.append h (List.nodup_singleton k) ?_
    intro a ha hb
    rw [List.mem_singleton] at hb
    exact hmem (hb ▸ ha)

lemma of_mem_dictInsert {t k : String} {rv v : List Ranked} :
    ∀ {l : List (String × List Ranked)}, (l.map Prod.fst).Nodup →
      (t, rv) ∈ dictInsert k v l → (t = k ∧ rv = v) ∨ (t ≠ k ∧ (t, rv) ∈ l) := by
  intro l
  induction l with
  | nil =>
    intro _ h
    simp only [dictInsert, List.mem_singleton, Prod.mk.injEq] at h
    exact Or.inl h
  | cons p rest ih =>
    intro hnd h
    obtain ⟨k', v'⟩ := p
    rw [List.map_cons, List.nodup_cons] at hnd
    obtain ⟨hk', hrest⟩ := hnd
    unfold dictInsert at h
    by_cases hk : k' = k
    · rw [if_pos hk] at h
      rcases List.mem_cons.mp h with heq | hmem
      · have h1 : t = k := (Prod.mk.injEq .. ▸ heq).1
        have h2 : rv = v := (Prod.mk.injEq .. ▸ heq).2
        exact Or.inl ⟨h1, h2⟩
      · right
        have htr : t ∈ rest.map Prod.fst := by
          exact List.mem_map.mpr ⟨(t, rv), hmem, rfl⟩
        refine ⟨fun hteq => ?_, List.mem_cons_of_mem _ hmem⟩
        subst hteq
        subst hk
        exact hk' htr
    · rw [if_neg hk] at h
      rcases List.mem_cons.mp h with heq | hmem
      · have h1 : t = k' := (Prod.mk.injEq .. ▸ heq).1
        right
        refine ⟨by rw [h1]; exact hk, heq ▸ List.mem_cons_self _ _⟩
      · rcases ih hrest hmem with hl | ⟨hne, hmem'⟩
        · exact Or.inl hl
        · exact Or.inr ⟨hne, List.mem_cons_of_mem _ hmem'⟩

/- Inversion and equation lemmas for the search and per-video loops. -/

lemma search_videos_vids {env : Env} {i : Nat} {t : String} {vs : List Video}
    (h : search_videos env i t = .vids vs) :
    ∃ items, env.searchResp i t = .ok items ∧
      vs = items.filterMap fun it =>
        if is_english it.title && is_english it.description then some (mkVideo it) else none := by
  unfold search_videos at h
  cases he : env.searchResp i t with
  | error e => rw [he] at h; exact absurd h (by simp)
  | ok items =>
    rw [he] at h
    simp only [SearchResult.vids.injEq] at h
    exact ⟨items, rfl, h.symm⟩

lemma processVideos_cons_none {env : Env} {topic : String} {v : Video} {vs : List Video}
    (hd : get_video_details env v.video_id = none) :
    processVideos env topic (v :: vs) = none := by
  conv_lhs => rw [processVideos]
  rw [hd]

lemma processVideos_cons_some {env : Env} {topic : String} {v : Video} {vs : List Video}
    {d : VideoStats} (hd : get_video_details env v.video_id = some d) :
    processVideos env topic (v :: vs) =
      if 50 ≤ d.comments then
        (processVideos env topic vs).map fun rest => mkRanked v d topic :: rest
      else processVideos env topic vs := by
  conv_lhs => rw [processVideos]
  rw [hd]

lemma processVideos_mem {env : Env} {topic : String} :
    ∀ {vids : List Video} {rs : List Ranked}, processVideos env topic vids = some rs →
      ∀ r ∈ rs, ∃ v ∈ vids, ∃ d, get_video_details env v.video_id = some d ∧
        50 ≤ d.comments ∧ r = mkRanked v d topic := by
  intro vids
  induction vids with
  | nil =>
    intro rs h r hr
    simp only [processVideos, Option.some.injEq] at h
    subst h
    simp at hr
  | cons v vs ih =>
    intro rs h r hr
    cases hd : get_video_details env v.video_id with
    | none => rw [processVideos_cons_none hd] at h; exact absurd h (by simp)
    | some d =>
      rw [processVideos_cons_some hd] at h
      by_cases hc : 50 ≤ d.comments
      · rw [if_pos hc] at h
        cases hrest : processVideos env topic vs with
        | none => rw [hrest] at h; exact absurd h (by simp)
        | some rest =>
          rw [hrest] at h
          simp only [Option.map_some', Option.some.injEq] at h
          subst h
          rcases List.mem_cons.mp hr with rfl | hr'
          · exact ⟨v, List.mem_cons_self v vs, d, hd, hc, rfl⟩
          · obtain ⟨v', hv', d', hd', hc', hr''⟩ := ih hrest r hr'
            exact ⟨v', List.mem_cons_of_mem v hv', d', hd', hc', hr''⟩
      · rw [if_neg hc] at h
        obtain ⟨v', hv', d', hd', hc', hr''⟩ := ih h r hr
        exact ⟨v', List.mem_cons_of_mem v hv', d', hd', hc', hr''⟩

lemma conceptResultAt_some {env : Env} {i : Nat} {t : String} {rv : List Ranked}
    (h : conceptResultAt env i t = some rv) :
    ∃ qual, qualifiedAt env i t = some qual ∧ rv = (sortDesc qual).take 1 := by
  unfold conceptResultAt at h
  cases hq : qualifiedAt env i t with
  | none => rw [hq] at h; exact absurd h (by simp)
  | some qual =>
    rw [hq] at h
    simp only [Option.map_some', Option.some.injEq] at h
    exact ⟨qual, rfl, h.symm⟩

lemma qualifiedAt_some {env : Env} {i : Nat} {t : String} {qual : List Ranked}
    (h : qualifiedAt env i t = some qual) :
    ∃ vids, search_videos env i t = .vids vids ∧ processVideos env t vids = some qual := by
  unfold qualifiedAt at h
  cases hs : search_videos env i t with
  | errStr s => rw [hs] at h; exact absurd h (by simp)
  | vids vids => rw [hs] at h; exact ⟨vids, rfl, h⟩

lemma ftrvGo_cons_err {env : Env} {i : Nat} {topic : String} {ts : List String}
    {acc : List (String × List Ranked)} {s : String}
    (hs : search_videos env i topic = .errStr s) :
    ftrvGo env i (topic :: ts) acc = .errStr s := by
  conv_lhs => rw [ftrvGo]
  rw [hs]

lemma ftrvGo_cons_exn {env : Env} {i : Nat} {topic : String} {ts : List String}
    {acc : List (String × List Ranked)} {videos : List Video}
    (hs : search_videos env i topic = .vids videos)
    (hp : processVideos env topic videos = none) :
    ftrvGo env i (topic :: ts) acc = .exn := by
  conv_lhs => rw [ftrvGo]
  rw [hs]
  show (match processVideos env topic videos with
    | none => FTRVResult.exn
    | some results => ftrvGo env (i + 1) ts (dictInsert topic ((sortDesc results).take 1) acc)) =
    FTRVResult.exn
  rw [hp]

lemma ftrvGo_cons_step {env : Env} {i : Nat} {topic : String} {ts : List String}
    {acc : List (String × List Ranked)} {videos : List Video} {results : List Ranked}
    (hs : search_videos env i topic = .vids videos)
    (hp : processVideos env topic videos = some results) :
    ftrvGo env i (topic :: ts) acc =
      ftrvGo env (i + 1) ts (dictInsert topic ((sortDesc results).take 1) acc) := by
  conv_lhs => rw [ftrvGo]
  rw [hs]
  show (match processVideos env topic videos with
    | none => FTRVResult.exn
    | some results => ftrvGo env (i + 1) ts (dictInsert topic ((sortDesc results).take 1) acc)) = _
  rw [hp]

lemma qualifiedAt_eq {env : Env} {i : Nat} {t : String} {videos : List Video}
    (hs : search_videos env i t = .vids videos) :
    qualifiedAt env i t = processVideos env t videos := by
  unfold qualifiedAt
  rw [hs]

/- The main loop specification: keys are distinct, every topic is present,
every entry carries the value computed at the last occurrence of its key,
and every processed topic completed successfully. -/

lemma ftrvGo_ok_spec (env : Env) :
    ∀ (ts : List String) (i : Nat) (acc m : List (String × List Ranked)),
      ftrvGo env i ts acc = .ok m →
      (acc.map Prod.fst).Nodup →
      ((m.map Prod.fst).Nodup
        ∧ (∀ t rv, (t, rv) ∈ m → lastIdxOf ts t = none → (t, rv) ∈ acc)
        ∧ (∀ t rv j, (t, rv) ∈ m → lastIdxOf ts t = some j →
            conceptResultAt env (i + j) t = some rv)
        ∧ (∀ p ∈ acc, ∃ rv, (p.1, rv) ∈ m)
        ∧ (∀ t ∈ ts, ∃ rv, (t, rv) ∈ m)
        ∧ topicsOkFrom env i ts = true) := by
  intro ts
  induction ts with
  | nil =>
    intro i acc m h hnd
    simp only [ftrvGo, FTRVResult.ok.injEq] at h
    subst h
    refine ⟨hnd, fun t rv hm _ => hm, fun t rv j _ hj => by simp [lastIdxOf] at hj,
      fun p hp => ⟨p.2, hp⟩, fun t ht => by simp at ht, rfl⟩
  | cons t0 ts ih =>
    intro i acc m h hnd
    cases hs : search_videos env i t0 with
    | errStr s => rw [ftrvGo_cons_err hs] at h; exact absurd h (by simp)
    | vids videos =>
      cases hp : processVideos env t0 videos with
      | none => rw [ftrvGo_cons_exn hs hp] at h; exact absurd h (by simp)
      | some results =>
        rw [ftrvGo_cons_step hs hp] at h
        have hnd' : ((dictInsert t0 ((sortDesc results).take 1) acc).map Prod.fst).Nodup :=
          dictInsert_keys_nodup hnd
        have hcr : conceptResultAt env i t0 = some ((sortDesc results).take 1) := by
          unfold conceptResultAt
          rw [qualifiedAt_eq hs, hp]
          rfl
        obtain ⟨N, A1, A2, AK, AT, OK⟩ := ih (i + 1) _ m h hnd'
        refine ⟨N, ?_, ?_, ?_, ?_, ?_⟩
        · intro t rv hm hlast
          unfold lastIdxOf at hlast
          cases hts : lastIdxOf ts t with
          | some j => rw [hts] at hlast; exact absurd hlast (by simp)
          | none =>
            rw [hts] at hlast
            have hne : t0 ≠ t := by
              by_contra heq
              rw [if_pos heq] at hlast
              exact absurd hlast (by simp)
            have hmem' := A1 t rv hm hts
            rcases of_mem_dictInsert hnd hmem' with ⟨heq, _⟩ | ⟨_, hmem''⟩
            · exact absurd heq.symm hne
            · exact hmem''
        · intro t rv j hm hlast
          unfold lastIdxOf at hlast
          cases hts : lastIdxOf ts t with
          | some j' =>
            rw [hts] at hlast
            simp only [Option.some.injEq] at hlast
            have h2 := A2 t rv j' hm hts
            rw [show i + j = i + 1 + j' from by omega]
            exact h2
          | none =>
            rw [hts] at hlast
            by_cases heq : t0 = t
            · rw [if_pos heq] at hlast
              simp only [Option.some.injEq] at hlast
              subst heq
              have hmem' := A1 t0 rv hm hts
              rcases of_mem_dictInsert hnd hmem' with ⟨_, hveq⟩ | ⟨hne, _⟩
              · rw [show i + j = i from by omega, hveq]
                exact hcr
              · exact absurd rfl hne
            · rw [if_neg heq] at hlast
              exact absurd hlast (by simp)
        · intro p hp'
          by_cases heq : p.1 = t0
          · rw [heq]
            exact AK (t0, (sortDesc results).take 1) (mem_dictInsert_self _ _ _)
          · exact AK (p.1, p.2) (mem_dictInsert_of_ne heq hp')
        · intro t ht
          rcases List.mem_cons.mp ht with rfl | ht'
          · exact AK (t, (sortDesc results).take 1) (mem_dictInsert_self _ _ _)
          · exact AT t ht'
        · unfold topicsOkFrom
          rw [OK]
          have hok : topicOkAt env i t0 = true := by
            unfold topicOkAt
            rw [hcr]
            rfl
          rw [hok]
          rfl

lemma topicOkAt_destruct {env : Env} {i : Nat} {t : String}
    (h : topicOkAt env i t = true) :
    ∃ videos results, search_videos env i t = .vids videos ∧
      processVideos env t videos = some results ∧
      conceptResultAt env i t = some ((sortDesc results).take 1) := by
  unfold topicOkAt at h
  cases hcr : conceptResultAt env i t with
  | none => rw [hcr] at h; exact absurd h (by simp)
  | some rv =>
    obtain ⟨qual, hq, hrv⟩ := conceptResultAt_some hcr
    obtain ⟨videos, hs, hp⟩ := qualifiedAt_some hq
    exact ⟨videos, qual, hs, hp, congrArg some hrv⟩

lemma ftrvGo_ok_exists (env : Env) :
    ∀ (ts : List String) (i : Nat) (acc : List (String × List Ranked)),
      topicsOkFrom env i ts = true → ∃ m, ftrvGo env i ts acc = .ok m := by
  intro ts
  induction ts with
  | nil => intro i acc _; exact ⟨acc, rfl⟩
  | cons t0 ts ih =>
    intro i acc h
    unfold topicsOkFrom at h
    rw [Bool.and_eq_true] at h
    obtain ⟨h0, hrest⟩ := h
    obtain ⟨videos, results, hs, hp, _⟩ := topicOkAt_destruct h0
    rw [ftrvGo_cons_step hs hp]
    exact ih (i + 1) _ hrest

/-- The fail-fast policy of lines 130-133: the first search error aborts the
whole loop and is returned verbatim, discarding all accumulated results. -/
lemma ftrvGo_fail_fast (env : Env) :
    ∀ (ts₁ : List String) (i : Nat) (acc : List (String × List Ranked))
      (t : String) (ts₂ : List String) (s : String),
      topicsOkFrom env i ts₁ = true →
      search_videos env (i + ts₁.length) t = .errStr s →
      ftrvGo env i (ts₁ ++ t :: ts₂) acc = .errStr s := by
  intro ts₁
  induction ts₁ with
  | nil =>
    intro i acc t ts₂ s _ herr
    rw [List.length_nil, Nat.add_zero] at herr
    rw [List.nil_append]
    exact ftrvGo_cons_err herr
  | cons t0 ts₁ ih =>
    intro i acc t ts₂ s h herr
    unfold topicsOkFrom at h
    rw [Bool.and_eq_true] at h
    obtain ⟨h0, hrest⟩ := h
    obtain ⟨videos, results, hs, hp, _⟩ := topicOkAt_destruct h0
    rw [List.cons_append, ftrvGo_cons_step hs hp]
    apply ih (i + 1) _ t ts₂ s hrest
    rw [show i + 1 + ts₁.length = i + (t0 :: ts₁).length from by simp; omega]
    exact herr

/- Support for the language-filter claim. -/

lemma matchesWordAt_oob {text tok : List Char} {i : Nat}
    (hi : text.length < i) (htok : tok ≠ []) : matchesWordAt text tok i = false := by
  unfold matchesWordAt
  have hdrop : text.drop i = [] := List.drop_eq_nil_of_le (le_of_lt hi)
  rw [hdrop]
  have : (([] : List Char).take tok.length).map Char.toLower = [] := by simp
  rw [this]
  rw [decide_eq_false (Ne.symm htok)]
  rfl

lemma get_video_details_of_resp {env : Env} {vid : String} {s : StatisticsObj}
    (hs : env.statsResp vid = some s) :
    get_video_details env vid =
      match s.viewCount with
      | none => none
      | some v =>
          some { views := v, likes := s.likeCount.getD 0, comments := s.commentCount.getD 0 } := by
  unfold get_video_details
  rw [hs]

lemma get_video_details_of_no_resp {env : Env} {vid : String}
    (hs : env.statsResp vid = none) : get_video_details env vid = none := by
  unfold get_video_details
  rw [hs]

lemma langTokens_ne_nil : ∀ tok ∈ langTokens, tok ≠ [] := by decide

lemma pyRound1_eval {x : ℚ} {n : ℤ} (h1 : (n : ℚ) ≤ x * 10) (h2 : x * 10 < n + 1 / 2) :
    pyRound1 x = (n : ℚ) / 10 := by
  have hfl : Int.floor (x * 10) = n := by
    rw [Int.floor_eq_iff]
    exact ⟨h1, by linarith⟩
  unfold pyRound1 roundHalfEven
  rw [hfl, if_pos (by linarith)]

/-- C1: for every stats record and title-relevance score, calculate_rating is
exactly round(min((0.6*r + 0.2*likes/(views+1) + 0.1*views/1e6 +
0.2*comments/1e3) * 10, 10), 1), and at views=1_000_000, likes=10_000,
comments=1_000, r=1.0 it returns 9.0. -/
theorem c1_calculate_rating_formula :
    (∀ (video_details : VideoStats) (r : ℚ),
        calculate_rating video_details r = rating_spec video_details r)
    ∧ calculate_rating ⟨1000000, 10000, 1000⟩ 1 = 9 := by
  refine ⟨fun vd r => rfl, ?_⟩
  show pyRound1 (min ((0.6 * (1 : ℚ)
      + 0.2 * (((10000 : ℕ) : ℚ) / (((1000000 : ℕ) : ℚ) + 1))
      + 0.1 * (((1000000 : ℕ) : ℚ) / 1000000)
      + 0.2 * (((1000 : ℕ) : ℚ) / 1000)) * 10) 10) = 9
  have hval : (0.6 * (1 : ℚ)
      + 0.2 * (((10000 : ℕ) : ℚ) / (((1000000 : ℕ) : ℚ) + 1))
      + 0.1 * (((1000000 : ℕ) : ℚ) / 1000000)
      + 0.2 * (((1000 : ℕ) : ℚ) / 1000)) * 10 = 9020009 / 1000001 := by
    norm_num
  rw [hval, min_eq_left (by norm_num)]
  rw [@pyRound1_eval (9020009 / 1000001) 90 (by norm_num) (by norm_num)]
  norm_num

/-- C7: is_english accepts a text iff no fixed language token occurs as a
whole word (case-insensitively) and every character is 7-bit ASCII; in
particular it accepts "Learn loops" and rejects a Devanagari string and
"This is about Hindi grammar". -/
theorem c7_is_english_characterisation :
    (∀ s : String, is_english s = true ↔
      ((∀ (i : Nat) (tok : List Char), tok ∈ langTokens →
          matchesWordAt s.toList tok i = false)
        ∧ ∀ c ∈ s.toList, c.toNat ≤ 127))
    ∧ is_english "Learn loops" = true
    ∧ is_english "सीखो लूप्स" = false
    ∧ is_english "This is about Hindi grammar" = false := by
  refine ⟨fun s => ?_, by decide, by decide, by decide⟩
  unfold is_english containsLangWord hasNonAscii
  rw [Bool.not_eq_true', Bool.or_eq_false_iff]
  simp only [List.any_eq_false, Bool.not_eq_true, List.mem_range, decide_eq_false_iff_not,
    Nat.not_lt]
  constructor
  · rintro ⟨h1, h2⟩
    refine ⟨fun i tok htok => ?_, h2⟩
    by_cases hi : i < s.toList.length + 1
    · exact h1 i hi tok htok
    · exact matchesWordAt_oob (by omega) (langTokens_ne_nil tok htok)
  · rintro ⟨h1, h2⟩
    exact ⟨fun i _ tok htok => h1 i tok htok, h2⟩

/-- C8: get_video_details projects the statistics object to views/likes/
comments with absent like and comment counts defaulting to 0, fails when the
response has no item or no viewCount field, and never fabricates a view
count. -/
theorem c8_get_video_details_contract (env : Env) (video_id : String) :
    (∀ s v, env.statsResp video_id = some s → s.viewCount = some v →
        get_video_details env video_id =
          some { views := v, likes := s.likeCount.getD 0, comments := s.commentCount.getD 0 })
    ∧ (env.statsResp video_id = none → get_video_details env video_id = none)
    ∧ (∀ s, env.statsResp video_id = some s → s.viewCount = none →
        get_video_details env video_id = none)
    ∧ (∀ d, get_video_details env video_id = some d →
        ∃ s, env.statsResp video_id = some s ∧ s.viewCount = some d.views) := by
  refine ⟨?_, ?_, ?_, ?_⟩
  · intro s v hs hv
    rw [get_video_details_of_resp hs, hv]
  · intro hs
    exact get_video_details_of_no_resp hs
  · intro s hs hv
    rw [get_video_details_of_resp hs, hv]
  · intro d hd
    cases hs : env.statsResp video_id with
    | none => rw [get_video_details_of_no_resp hs] at hd; exact absurd hd (by simp)
    | some s =>
      rw [get_video_details_of_resp hs] at hd
      cases hv : s.viewCount with
      | none => rw [hv] at hd; exact absurd hd (by simp)
      | some v =>
        rw [hv] at hd
        simp only [Option.some.injEq] at hd
        refine ⟨s, rfl, ?_⟩
        rw [hv, ← hd]

/-- C2: if every earlier topic's search-and-stats round completed and the
search for topic `t` returns an error string, find_top_rated_videos returns
that very string, producing no result mapping for any topic. -/
theorem c2_search_error_fail_fast (env : Env) (ts1 ts2 : List String) (t s : String)
    (h1 : topicsOkFrom env 0 ts1 = true)
    (h2 : search_videos env ts1.length t = .errStr s) :
    find_top_rated_videos env (ts1 ++ t :: ts2) = .errStr s := by
  unfold find_top_rated_videos
  apply ftrvGo_fail_fast env ts1 0 [] t ts2 s h1
  rw [Nat.zero_add]
  exact h2

/-- C5: every ranked tutorial in the result mapping originates from a search
item whose title and description both passed is_english, and its fetched
statistics show at least 50 comments. -/
theorem c5_quality_floor_and_language_invariant (env : Env) (topics : List String)
    (m : List (String × List Ranked)) (t : String) (rvids : List Ranked) (r : Ranked)
    (hok : find_top_rated_videos env topics = .ok m)
    (hmem : (t, rvids) ∈ m) (hr : r ∈ rvids) :
    ∃ j items it d,
      env.searchResp j t = .ok items ∧ it ∈ items ∧
      is_english it.title = true ∧ is_english it.description = true ∧
      it.videoId = r.video_id ∧ it.title = r.title ∧
      get_video_details env r.video_id = some d ∧ 50 ≤ d.comments := by
  obtain ⟨N, A1, A2, AK, AT, OK⟩ := ftrvGo_ok_spec env topics 0 [] m hok (by simp)
  cases hl : lastIdxOf topics t with
  | none => exact absurd (A1 t rvids hmem hl) (by simp)
  | some j =>
    have hcr := A2 t rvids j hmem hl
    rw [Nat.zero_add] at hcr
    obtain ⟨qual, hq, hrveq⟩ := conceptResultAt_some hcr
    obtain ⟨vids, hs, hp⟩ := qualifiedAt_some hq
    have hr' : r ∈ qual := by
      rw [hrveq] at hr
      exact mem_sortDesc.mp (List.take_subset 1 _ hr)
    obtain ⟨v, hv, d, hd, hc, hrk⟩ := processVideos_mem hp r hr'
    obtain ⟨items, hresp, hveq⟩ := search_videos_vids hs
    rw [hveq, List.mem_filterMap] at hv
    obtain ⟨it, hit, hite⟩ := hv
    by_cases he : (is_english it.title && is_english it.description) = true
    · rw [if_pos he] at hite
      simp only [Option.some.injEq] at hite
      rw [Bool.and_eq_true] at he
      refine ⟨j, items, it, d, hresp, hit, he.1, he.2, ?_, ?_, ?_, hc⟩
      · rw [hrk, ← hite]
        rfl
      · rw [hrk, ← hite]
        rfl
      · rw [hrk, ← hite]
        rw [← hite] at hd
        exact hd
    · rw [if_neg he] at hite
      exact absurd hite (by simp)

/-- C6: under successful searches, every topic is mapped (possibly to the
empty list) to the first element of the stable descending-by-rating sort of
its qualifying candidates: the sorted sequence is ordered by non-increasing
rating and preserves, for every rating value, the original discovery order. -/
theorem c6_stable_descending_top1 (env : Env) (topics : List String)
    (hok : topicsOkFrom env 0 topics = true) :
    ∃ m, find_top_rated_videos env topics = .ok m ∧
      ∀ t ∈ topics, ∃ j rv qual,
        lastIdxOf topics t = some j ∧ (t, rv) ∈ m ∧
        qualifiedAt env j t = some qual ∧
        rv = (sortDesc qual).take 1 ∧
        List.Pairwise (fun a b => b.rating ≤ a.rating) (sortDesc qual) ∧
        (∀ c : ℚ, (sortDesc qual).filter (fun r => decide (r.rating = c)) =
          qual.filter (fun r => decide (r.rating = c))) := by
  obtain ⟨m, hm⟩ := ftrvGo_ok_exists env topics 0 [] hok
  refine ⟨m, hm, ?_⟩
  obtain ⟨N, A1, A2, AK, AT, OK⟩ := ftrvGo_ok_spec env topics 0 [] m hm (by simp)
  intro t ht
  obtain ⟨rv, hrv⟩ := AT t ht
  cases hl : lastIdxOf topics t with
  | none => exact absurd (A1 t rv hrv hl) (by simp)
  | some j =>
    have hcr := A2 t rv j hrv hl
    rw [Nat.zero_add] at hcr
    obtain ⟨qual, hq, hrveq⟩ := conceptResultAt_some hcr
    exact ⟨j, rv, qual, rfl, hrv, hq, hrveq, sortDesc_sorted qual,
      fun c => filter_sortDesc c qual⟩

/-- C10: a successful run queries every occurrence of a duplicated concept
(each search call completes), yet the mapping has exactly one entry per
distinct concept string, holding the value computed at the last occurrence. -/
theorem c10_duplicates_last_write_wins (env : Env) (topics : List String)
    (m : List (String × List Ranked))
    (h : find_top_rated_videos env topics = .ok m) :
    (m.map Prod.fst).Nodup
    ∧ (∀ t ∈ topics, ∃ rv, (t, rv) ∈ m)
    ∧ (∀ t rv, (t, rv) ∈ m → ∃ j, lastIdxOf topics t = some j ∧
        conceptResultAt env j t = some rv)
    ∧ topicsOkFrom env 0 topics = true := by
  obtain ⟨N, A1, A2, AK, AT, OK⟩ := ftrvGo_ok_spec env topics 0 [] m h (by simp)
  refine ⟨N, AT, ?_, OK⟩
  intro t rv hm
  cases hl : lastIdxOf topics t with
  | none => exact absurd (A1 t rv hm hl) (by simp)
  | some j =>
    refine ⟨j, rfl, ?_⟩
    have h2 := A2 t rv j hm hl
    rwa [Nat.zero_add] at h2

lemma findSep_all_space : ∀ {cs : List Char}, (∀ c ∈ cs, isPySpace c = true) →
    findSep cs = none := by
  intro cs
  induction cs with
  | nil => intro _; rfl
  | cons c cs' ih =>
    intro h
    rw [findSep_cons_none (matchSep_all_space h)]
    rw [ih fun x hx => h x (List.mem_cons_of_mem c hx)]
    rfl

/-- C3 counterexample: a piece that already contains "in Python" still gets
" in Python" appended, so the query "loops in Python" is not emitted
unchanged. -/
theorem c3_counterexample_double_append :
    parseConcepts "loops in Python" = ["loops in Python in Python"]
    ∧ ("loops in Python in Python" : String) ≠ "loops in Python" := by
  constructor
  · decide
  · decide

/-- C3 (amended): line 180 appends " in Python" to every stripped piece
unconditionally — even to pieces already containing "in Python" — and the
second, conditional single-word pass of line 183 never fires, because every
first-pass concept already ends in the two extra words "in Python". -/
theorem c3_amended_append_is_unconditional :
    ∀ q : List Char,
      conceptsOf q = ((pySplit q).map fun p => pyStrip p ++ inPython)
      ∧ finalConceptsOf q = conceptsOf q :=
  fun q => ⟨rfl, secondPass_id q⟩

/-- C4 counterexample: the split is not case-insensitive — an uppercase "OR"
separator is not split, so the two case variants parse differently. -/
theorem c4_counterexample_case_sensitive :
    parseConcepts "loops OR arrays" ≠ parseConcepts "loops or arrays" := by
  decide

/-- C4 (amended): the query is split case-sensitively on commas with optional
surrounding whitespace and on the lowercase words "and" / "or" with
whitespace on both sides; uppercase variants are not separators; pieces are
trimmed but empty pieces are kept (a trailing comma yields the bare concept
" in Python"). -/
theorem c4_amended_split_behaviour (a b : List Char)
    (hA : a ≠ []) (hB : b ≠ [])
    (ha : ∀ c ∈ a, isLetter c = true) (hb : ∀ c ∈ b, isLetter c = true) :
    finalConceptsOf (a ++ ',' :: ' ' :: b) = [a ++ inPython, b ++ inPython]
    ∧ finalConceptsOf (a ++ ' ' :: 'a' :: 'n' :: 'd' :: ' ' :: b) = [a ++ inPython, b ++ inPython]
    ∧ finalConceptsOf (a ++ ' ' :: 'o' :: 'r' :: ' ' :: b) = [a ++ inPython, b ++ inPython]
    ∧ finalConceptsOf (a ++ ' ' :: 'A' :: 'N' :: 'D' :: ' ' :: b) =
        [(a ++ ' ' :: 'A' :: 'N' :: 'D' :: ' ' :: b) ++ inPython]
    ∧ finalConceptsOf (a ++ [',']) = [a ++ inPython, inPython] := by
  refine ⟨?_, ?_, ?_, ?_, ?_⟩
  · rw [secondPass_id]
    exact conceptsOf_two_pieces ha hb
      (findSep_cons_some (matchSep_comma_space hb)) rfl
  · rw [secondPass_id]
    exact conceptsOf_two_pieces ha hb
      (findSep_cons_some (matchSep_and_junction hb)) rfl
  · rw [secondPass_id]
    exact conceptsOf_two_pieces ha hb
      (findSep_cons_some (matchSep_or_junction hb)) rfl
  · rw [secondPass_id]
    unfold conceptsOf
    rw [pySplit_none (findSep_AND_none ha hb), List.map_cons, List.map_nil,
      pyStrip_append_AND hA hB ha hb]
  · rw [secondPass_id]
    have h2 := conceptsOf_two_pieces (b := []) ha (by simp)
      (findSep_cons_some (by decide : matchSep [','] = some 1)) rfl
    rw [h2, List.nil_append]

/-- C9 counterexample: a whitespace-only input is truthy in Python, so the
handler does not short-circuit with the prompt — it searches for the single
degenerate concept " in Python". -/
theorem c9_counterexample_whitespace_input :
    tutorialHandler " " = HandlerAction.search [" in Python"]
    ∧ HandlerAction.search [" in Python"] ≠ HandlerAction.prompt := by
  constructor
  · decide
  · decide

/-- C9 (amended): only the exactly-empty input short-circuits with the
prompt; every non-empty whitespace-only input parses to the single concept
" in Python" and proceeds to the remote search. -/
theorem c9_amended_only_empty_short_circuits :
    tutorialHandler "" = HandlerAction.prompt
    ∧ ∀ s : String, s ≠ "" → (∀ c ∈ s.toList, isPySpace c = true) →
        tutorialHandler s = HandlerAction.search [" in Python"] := by
  constructor
  · rfl
  · intro s hne hws
    unfold tutorialHandler
    rw [if_neg hne]
    congr 1
    unfold parseConcepts
    rw [secondPass_id]
    unfold conceptsOf
    rw [pySplit_none (findSep_all_space hws)]
    have hstrip : pyStrip s.toList = [] := by
      unfold pyStrip
      rw [List.dropWhile_eq_nil_iff.mpr hws]
      rfl
    rw [List.map_cons, List.map_nil, hstrip, List.nil_append, List.map_cons, List.map_nil]
    decide

/-- Witness for C2 at a concrete environment: topic "t" succeeds, topic
"fail" errors, topic "x" would also have succeeded but is never reached. -/
theorem c2_witness :
    find_top_rated_videos envA (["t"] ++ "fail" :: ["x"]) =
      .errStr "An HTTP error occurred: boom" :=
  c2_search_error_fail_fast envA ["t"] ["x"] "fail" "An HTTP error occurred: boom"
    (by with_unfolding_all decide) (by decide)

/-- Witness for C4 (amended) at the letter tokens "loops" and "arrays". -/
theorem c4_witness :
    finalConceptsOf ("loops".toList ++ ',' :: ' ' :: "arrays".toList) =
        ["loops".toList ++ inPython, "arrays".toList ++ inPython]
    ∧ finalConceptsOf ("loops".toList ++ ' ' :: 'a' :: 'n' :: 'd' :: ' ' :: "arrays".toList) =
        ["loops".toList ++ inPython, "arrays".toList ++ inPython]
    ∧ finalConceptsOf ("loops".toList ++ ' ' :: 'o' :: 'r' :: ' ' :: "arrays".toList) =
        ["loops".toList ++ inPython, "arrays".toList ++ inPython]
    ∧ finalConceptsOf ("loops".toList ++ ' ' :: 'A' :: 'N' :: 'D' :: ' ' :: "arrays".toList) =
        [("loops".toList ++ ' ' :: 'A' :: 'N' :: 'D' :: ' ' :: "arrays".toList) ++ inPython]
    ∧ finalConceptsOf ("loops".toList ++ [',']) = ["loops".toList ++ inPython, inPython] :=
  c4_amended_split_behaviour "loops".toList "arrays".toList
    (by decide) (by decide) (by decide) (by decide)

/-- Witness for C5 at a concrete environment: the single ranked tutorial for
topic "t" traces back to `itemA`, whose stats show 1000 comments. -/
theorem c5_witness :
    ∃ j items it d,
      envA.searchResp j "t" = Except.ok items ∧ it ∈ items ∧
      is_english it.title = true ∧ is_english it.description = true ∧
      it.videoId = rankedA.video_id ∧ it.title = rankedA.title ∧
      get_video_details envA rankedA.video_id = some d ∧ 50 ≤ d.comments :=
  c5_quality_floor_and_language_invariant envA ["t"] [("t", [rankedA])] "t" [rankedA] rankedA
    (by with_unfolding_all decide) (by decide) (by decide)

/-- Witness for C6 at a concrete environment with one successful topic. -/
theorem c6_witness :
    ∃ m, find_top_rated_videos envA ["t"] = .ok m ∧
      ∀ t ∈ ["t"], ∃ j rv qual,
        lastIdxOf ["t"] t = some j ∧ (t, rv) ∈ m ∧
        qualifiedAt envA j t = some qual ∧
        rv = (sortDesc qual).take 1 ∧
        List.Pairwise (fun a b => b.rating ≤ a.rating) (sortDesc qual) ∧
        (∀ c : ℚ, (sortDesc qual).filter (fun r => decide (r.rating = c)) =
          qual.filter (fun r => decide (r.rating = c))) :=
  c6_stable_descending_top1 envA ["t"] (by with_unfolding_all decide)

/-- Witness for C7: the characterisation instantiated at "Learn loops". -/
theorem c7_witness :
    (∀ (i : Nat) (tok : List Char), tok ∈ langTokens →
        matchesWordAt "Learn loops".toList tok i = false)
    ∧ ∀ c ∈ "Learn loops".toList, c.toNat ≤ 127 :=
  (c7_is_english_characterisation.1 "Learn loops").mp (by decide)

/-- Witness for C8: a response with viewCount 0, likeCount 0 and commentCount
1000 projects to the corresponding record. -/
theorem c8_witness :
    get_video_details envA "vid1" = some { views := 0, likes := 0, comments := 1000 } :=
  (c8_get_video_details_contract envA "vid1").1
    { viewCount := some 0, likeCount := some 0, commentCount := some 1000 } 0 (by decide) rfl

/-- Witness for C9 (amended): the one-space input searches for " in Python". -/
theorem c9_witness :
    tutorialHandler " " = HandlerAction.search [" in Python"] :=
  c9_amended_only_empty_short_circuits.2 " " (by decide) (by decide)

/-- Witness for C10 at a concrete environment where the two occurrences of
"t" observe different search responses: the mapping holds the second (empty)
result, not the first. -/
theorem c10_witness :
    ((([("t", ([] : List Ranked))]).map Prod.fst).Nodup
      ∧ (∀ t ∈ ["t", "t"], ∃ rv, (t, rv) ∈ [("t", ([] : List Ranked))])
      ∧ (∀ t rv, (t, rv) ∈ [("t", ([] : List Ranked))] →
          ∃ j, lastIdxOf ["t", "t"] t = some j ∧ conceptResultAt envA j t = some rv)
      ∧ topicsOkFrom envA 0 ["t", "t"] = true) :=
  c10_duplicates_last_write_wins envA ["t", "t"] [("t", [])]
    (by with_unfolding_all decide)
